import Mathlib

/-!
A verification development for the toyjq repository: a shallow embedding of
its parser-combinator engine (`src/parsercombinator.rs`), its Wadler-style
pretty printer (`src/prettyprinter.rs`) and its JSON grammar (`src/json.rs`),
together with theorems settling the specification claims.

The main model works at the character level: the input is a `List Char` and
`pos` counts characters.  For ASCII inputs (the only inputs exercised by the
claims that run concrete parses) one character is one byte, so character
positions coincide with the byte offsets of the Rust source.  A second,
byte-exact model (namespace `ByteModel` below) represents the input as raw
UTF-8 bytes and makes the panic branches of Rust string slicing explicit; it
is used for the claims about slicing safety.

Renamings forced by Lean keywords: Rust `try` is `tryP`, Rust `then` is
`thenP`, Rust `until` is `untilP`, Rust `many` is `manyP`.  The `_lazy`
variants take a `Unit →` thunk mirroring the `Fn()` closures of the source.
-/

namespace Toyjq

/-- `ParseError` of `src/parsercombinator.rs`: retry flag, message, absolute
input position. -/
structure ParseError where
  retry : Bool
  message : String
  pos : Nat
deriving DecidableEq

/-- `StrStream` of `src/parsercombinator.rs`: the input and a cursor
position into it (characters in this model; bytes in the Rust source —
identical for ASCII input). -/
structure StrStream where
  body : List Char
  pos : Nat
deriving DecidableEq

/-- `StrStream::can_advance`. -/
def StrStream.canAdvance (s : StrStream) : Bool :=
  s.pos < s.body.length

/-- `StrStream::current`: the residual input `&body[pos..len]`. -/
def StrStream.current (s : StrStream) : List Char :=
  s.body.drop s.pos

/-- `StrStream::take`: `&cr[0..min(cr.len(), n)]` (`List.take` clamps just
like `min` does). -/
def StrStream.take (s : StrStream) (n : Nat) : List Char :=
  s.current.take n

/-- `StrStream::advance`. -/
def StrStream.advance (s : StrStream) (n : Nat) : StrStream :=
  { s with pos := s.pos + n }

/-- `ParseResult<'a, T> = Result<(StrStream<'a>, T), ParseError>`. -/
def ParseResult (α : Type) : Type :=
  Except ParseError (StrStream × α)

/-- `Parser<'a, T>`: a function from cursor to result. -/
def Parser (α : Type) : Type :=
  StrStream → ParseResult α

/-- The message built by `string`/`chr` on a mismatch
(`format!("Expected `{}` but actual is `{}`.", s, heads)`). -/
def expectedMsg (s heads : List Char) : String :=
  "Expected " ++ String.mk s ++ " but actual is " ++ String.mk heads ++ "."

/-- `unit`: succeed with `x`, consuming nothing. -/
def unit (x : α) : Parser α := fun i =>
  .ok (i, x)

/-- `string`: parse the literal `s`. -/
def string (s : List Char) : Parser (List Char) := fun input =>
  if input.canAdvance then
    let len := s.length
    let heads := input.take len
    if s = heads then
      .ok (input.advance len, s)
    else
      .error ⟨true, expectedMsg s heads, input.pos⟩
  else
    .error ⟨true, "Reaches end.", input.pos⟩

/-- `chr`: parse the single character `c`.  The `[]` branch of the inner
match is the `unwrap` of the source; it is unreachable because
`can_advance` guarantees a nonempty residual. -/
def chr (c : Char) : Parser Char := fun input =>
  if input.canAdvance then
    match input.take 1 with
    | head :: _ =>
      if c = head then
        .ok (input.advance 1, c)
      else
        .error ⟨true, expectedMsg [c] [head], input.pos⟩
    | [] => .error ⟨true, "unreachable: take 1 of a nonempty residual", input.pos⟩
  else
    .error ⟨true, "Reaches end.", input.pos⟩

/-- `failure`: always fail with the given message, `retry = true`. -/
def failure (message : String) : Parser Unit := fun input =>
  .error ⟨true, message, input.pos⟩

/-- The `while` loop of `until`, as structural recursion on fuel.  Yields
the position at which `s` first matches; `none` once the end of input is
reached.  Fuel `body.length + 1 - pos` always suffices, since the loop
advances one character per step. -/
def untilLoop (s body : List Char) : Nat → Nat → Option Nat
  | _, 0 => none
  | pos, fuel + 1 =>
    if pos < body.length then
      if s = (body.drop pos).take s.length then some pos
      else untilLoop s body (pos + 1) fuel
    else none

/-- `until`: consume input up to (excluding) the first occurrence of `s`,
returning the consumed slice `&body[initpos..pos]`. -/
def untilP (s : List Char) : Parser (List Char) := fun input =>
  match untilLoop s input.body input.pos (input.body.length + 1 - input.pos) with
  | some p => .ok (⟨input.body, p⟩, (input.body.drop input.pos).take (p - input.pos))
  | none => .error ⟨true, "Reaches end.", input.pos⟩

/-- `Parser::parse`: run on a fresh stream and drop the residual cursor. -/
def Parser.parse (p : Parser α) (input : List Char) : Except ParseError α :=
  match p ⟨input, 0⟩ with
  | .ok (_, v) => .ok v
  | .error e => .error e

/-- `Parser::map`. -/
def Parser.map (p : Parser α) (f : α → β) : Parser β := fun input =>
  match p input with
  | .ok (input2, x) => .ok (input2, f x)
  | .error e => .error e

/-- `Parser::map_`: like `map` but replace the result by a constant. -/
def Parser.mapConst (p : Parser α) (x : β) : Parser β := fun input =>
  match p input with
  | .ok (input2, _) => .ok (input2, x)
  | .error e => .error e

/-- `Parser::flat_map`.  Note the commitment rule of the source: the
second parser's failure has its `retry` flag replaced by
`input.pos == input2.pos` (whether the first parser consumed nothing). -/
def Parser.flatMap (p : Parser α) (f : α → Parser β) : Parser β := fun input =>
  match p input with
  | .error e => .error e
  | .ok (input2, o) =>
    let retry := input.pos == input2.pos
    match f o input2 with
    | .ok r => .ok r
    | .error e => .error ⟨retry, e.message, e.pos⟩

/-- `Parser::then`: sequence, keeping the second value (same commitment
rule as `flat_map`). -/
def Parser.thenP (p : Parser α) (q : Parser β) : Parser β := fun input =>
  match p input with
  | .error e => .error e
  | .ok (input2, _) =>
    let retry := input.pos == input2.pos
    match q input2 with
    | .ok r => .ok r
    | .error e => .error ⟨retry, e.message, e.pos⟩

/-- `Parser::then_lazy`, defined through `flat_map` as in the source. -/
def Parser.thenLazy (p : Parser α) (f : Unit → Parser β) : Parser β :=
  p.flatMap fun _ => f ()

/-- `Parser::skip`: sequence, keeping the first value (same commitment
rule). -/
def Parser.skip (p : Parser α) (q : Parser β) : Parser α := fun input =>
  match p input with
  | .error e => .error e
  | .ok (input2, v) =>
    let retry := input.pos == input2.pos
    match q input2 with
    | .ok (input3, _) => .ok (input3, v)
    | .error e => .error ⟨retry, e.message, e.pos⟩

/-- `Parser::and`: sequence, keeping both values (same commitment rule). -/
def Parser.and (p : Parser α) (q : Parser β) : Parser (α × β) := fun input =>
  match p input with
  | .error e => .error e
  | .ok (input2, o) =>
    let retry := input.pos == input2.pos
    match q input2 with
    | .ok (input3, o2) => .ok (input3, (o, o2))
    | .error e => .error ⟨retry, e.message, e.pos⟩

/-- `Parser::and_lazy`. -/
def Parser.andLazy (p : Parser α) (f : Unit → Parser β) : Parser (α × β) := fun input =>
  match p input with
  | .error e => .error e
  | .ok (input2, o) =>
    let retry := input.pos == input2.pos
    match f () input2 with
    | .ok (input3, o2) => .ok (input3, (o, o2))
    | .error e => .error ⟨retry, e.message, e.pos⟩

/-- `Parser::or`: on a `retry = true` failure of the left parser, run the
right one from the original cursor. -/
def Parser.or (p q : Parser α) : Parser α := fun input =>
  match p input with
  | .ok o => .ok o
  | .error ⟨true, _, _⟩ => q input
  | .error e => .error e

/-- `Parser::or_lazy`. -/
def Parser.orLazy (p : Parser α) (f : Unit → Parser α) : Parser α := fun input =>
  match p input with
  | .ok o => .ok o
  | .error ⟨true, _, _⟩ => f () input
  | .error e => .error e

/-- `Parser::or_not`: turn any failure into success with `none`, consuming
nothing. -/
def Parser.orNot (p : Parser α) : Parser (Option α) := fun input =>
  match p input with
  | .ok (input2, v) => .ok (input2, some v)
  | .error _ => .ok (input, none)

/-- `Parser::try`: rewrite any failure to `retry = true` with the position
reset to the starting offset. -/
def Parser.tryP (p : Parser α) : Parser α := fun input =>
  match p input with
  | .ok o => .ok o
  | .error e => .error ⟨true, e.message, input.pos⟩

/-- The loop of `Parser::many`, with explicit fuel (the Rust loop would
diverge on a parser that succeeds without consuming; for parsers that
consume on success, fuel `body.length + 1` is never exhausted). -/
def manyLoop (p : Parser α) : Nat → StrStream → List α → ParseResult (List α)
  | 0, i, v => .ok (i, v)
  | fuel + 1, i, v =>
    match p i with
    | .ok (input2, o) => manyLoop p fuel input2 (v ++ [o])
    | .error ⟨true, _, _⟩ => .ok (i, v)
    | .error e => .error e

/-- `Parser::many`: zero or more repetitions. -/
def Parser.manyP (p : Parser α) : Parser (List α) := fun input =>
  manyLoop p (input.body.length + 1) input []

/-- The loop of `Parser::sep_by` (after the first element was parsed),
with explicit fuel as for `many`. -/
def sepByLoop (p : Parser α) (d : Parser β) : Nat → StrStream → List α → ParseResult (List α)
  | 0, i, v => .ok (i, v)
  | fuel + 1, i, v =>
    match d i with
    | .ok (input3, _) =>
      match p input3 with
      | .ok (input4, o) => sepByLoop p d fuel input4 (v ++ [o])
      | .error e => .error e
    | .error ⟨true, _, _⟩ => .ok (i, v)
    | .error e => .error e

/-- `Parser::sep_by`: a possibly-empty `d`-separated sequence of `p`.
Note the first-element case of the source: `Err(_) => return Ok((i, v))`
absorbs a failure of the first element whatever its retry flag. -/
def Parser.sepBy (p : Parser α) (d : Parser β) : Parser (List α) := fun input =>
  match p input with
  | .ok (input2, o) => sepByLoop p d (input.body.length + 1) input2 [o]
  | .error _ => .ok (input, [])

/-- `Parser::with_spaces`. -/
def Parser.withSpaces (p : Parser α) : Parser α :=
  ((((chr ' ').manyP).thenP p).skip ((chr ' ').manyP)).tryP

/-- `or_from`: left-fold `or` over a sequence of alternatives, each made
retryable.  The source `unwrap`s the first element; the `[]` case (a
panic in Rust) is modelled as an unconditional failure and is never used
with an empty sequence. -/
def orFrom (ps : List (Parser α)) : Parser α :=
  match ps with
  | [] => fun i => .error ⟨true, "or_from on an empty sequence", i.pos⟩
  | p0 :: rest => rest.foldl (fun acc p => (acc.tryP).or p) p0

/-! ## Pretty printer (`src/prettyprinter.rs`)

Strings are `List Char` and widths are `Int` (the source uses `i32`; the
sums involved stay far below the overflow bound for any document these
theorems touch, so no wraparound is modelled).  `s.len()` is the length in
the model's character unit. -/

/-- `DocElem` of `src/prettyprinter.rs`.  `Literal`/`Text` differ only in
ownership in the source, so both carry a `List Char` here. -/
inductive DocElem where
  | literal : List Char → DocElem
  | text : List Char → DocElem
  | newline : Int → DocElem
  | flatable : List DocElem → DocElem

/-- `Doc`: the top-level sequence of elements. -/
structure Doc where
  elems : List DocElem

mutual
/-- `flatten_print`'s inner `flatten_walk` on one element. -/
def flattenWalkE : DocElem → List Char
  | .literal s => s
  | .text s => s
  | .newline _ => [' ']
  | .flatable ds => flattenWalkL ds

/-- `flatten_print`'s inner `flatten_walk` on a list (the pushes into
`ret`, in order). -/
def flattenWalkL : List DocElem → List Char
  | [] => []
  | d :: ds => flattenWalkE d ++ flattenWalkL ds
end

/-- `flatten_print`. -/
def flattenPrint (vdocs : List DocElem) : List Char :=
  flattenWalkL vdocs

mutual
/-- `flat_doc_width` on one element. -/
def flatWidthE : DocElem → Int
  | .literal s => s.length
  | .text s => s.length
  | .newline _ => 1
  | .flatable ds => flatWidthL ds

/-- `flat_doc_width`'s walk over a list. -/
def flatWidthL : List DocElem → Int
  | [] => 0
  | d :: ds => flatWidthE d + flatWidthL ds
end

/-- `flat_doc_width`. -/
def flatDocWidth (vdocs : List DocElem) : Int :=
  flatWidthL vdocs

/-- The mutable state threaded through `pretty_walk`: `rest_width`,
`indent` and the output accumulated so far. -/
structure PState where
  restWidth : Int
  indent : Int
  ret : List Char
deriving DecidableEq

mutual
/-- One step of `pretty_walk` (the body of its `for` loop).  In the
flatten branch the source pushes the flattened string and then does
`*rest_width -= ret.len()`, i.e. subtracts the length of the whole
accumulated output including the prefix that was already there. -/
def prettyWalkE (width : Int) : DocElem → PState → PState
  | .literal s, st =>
    { st with restWidth := st.restWidth - s.length, ret := st.ret ++ s }
  | .text s, st =>
    { st with restWidth := st.restWidth - s.length, ret := st.ret ++ s }
  | .newline i, st =>
    let ind := st.indent + i
    { restWidth := width - ind
      indent := ind
      ret := st.ret ++ '\n' :: List.replicate ind.toNat ' ' }
  | .flatable ds2, st =>
    if flatDocWidth ds2 ≤ st.restWidth then
      let ret2 := st.ret ++ flattenPrint ds2
      { st with ret := ret2, restWidth := st.restWidth - ret2.length }
    else
      prettyWalkL width ds2 st

/-- `pretty_walk` over a list of elements. -/
def prettyWalkL (width : Int) : List DocElem → PState → PState
  | [], st => st
  | d :: ds, st => prettyWalkL width ds (prettyWalkE width d st)
end

/-- `Doc::pretty`: walk the root sequence starting from `rest_width =
width`, `indent = 0`, empty output. -/
def Doc.pretty (doc : Doc) (width : Int) : List Char :=
  (prettyWalkL width doc.elems ⟨width, 0, []⟩).ret

/-! ## JSON grammar (`src/json.rs`)

`JNumber(f64)` holds the `f64` parsed from the matched text in the source;
floating-point semantics is outside the model, so `jnumber` holds the
matched text itself and `rustF64parses` models which texts
`str::parse::<f64>()` accepts (nonempty standard decimal floating-point
literals; the claims below never depend on its fine structure — on their
inputs only the empty string ever reaches it, and Rust rejects that). -/

inductive JValue where
  | jnumber : List Char → JValue
  | jstring : List Char → JValue
  | jbool : Bool → JValue
  | jnull : JValue
  | jarray : List JValue → JValue
  | jobject : List (List Char × JValue) → JValue

/-- Digits `0`-`9`. -/
def isDigitCh (c : Char) : Bool :=
  '0' ≤ c && c ≤ '9'

/-- Models `str::parse::<f64>().is_ok()` on the character set
`-0123456789.Ee+` reachable from the grammar: an optional sign, then
`digits [. digits] [(e|E) [sign] digits]` or `. digits [(e|E) [sign]
digits]`; the empty string is rejected. -/
def rustF64parses (s : List Char) : Bool :=
  let afterSign :=
    match s with
    | '-' :: rest => rest
    | '+' :: rest => rest
    | _ => s
  let intPart := afterSign.takeWhile isDigitCh
  let afterInt := afterSign.dropWhile isDigitCh
  let (fracPart, afterFrac) :=
    match afterInt with
    | '.' :: rest => (rest.takeWhile isDigitCh, rest.dropWhile isDigitCh)
    | _ => ([], afterInt)
  let mantissaOk := !intPart.isEmpty || !fracPart.isEmpty
  let expOk :=
    match afterFrac with
    | [] => true
    | 'e' :: rest | 'E' :: rest =>
      let afterExpSign :=
        match rest with
        | '-' :: r => r
        | '+' :: r => r
        | _ => rest
      !afterExpSign.isEmpty && afterExpSign.all isDigitCh
    | _ => false
  mantissaOk && expOk

/-- `parse_jbool`. -/
def parseJbool : Parser JValue :=
  ((((string "true".toList).map fun _ => JValue.jbool true).tryP).or
    ((string "false".toList).map fun _ => JValue.jbool false)).tryP

/-- `parse_jnull`. -/
def parseJnull : Parser JValue :=
  ((string "null".toList).map fun _ => JValue.jnull).tryP

/-- `parse_jnumber`. -/
def parseJnumber : Parser JValue :=
  ((orFrom ("-0123456789.Ee+".toList.map chr)).manyP.tryP).flatMap fun v =>
    if rustF64parses v then
      (unit v).map JValue.jnumber
    else
      (failure ("Unable to parse a number: " ++ String.mk v)).map fun _ => JValue.jnull

/-- `parse_string`. -/
def parseString : Parser (List Char) :=
  ((chr '"').thenLazy fun _ => untilP "\"".toList).skip (chr '"')

/-- `parse_jstring`. -/
def parseJstring : Parser JValue :=
  parseString.map JValue.jstring

/-- `parse_keyvalue`, parameterized by the parser that the source reaches
through its `|| parse_json()` thunk. -/
def parseKeyvalueWith (pj : Parser JValue) : Parser (List Char × JValue) :=
  (parseString.skip ((chr ':').withSpaces)).andLazy fun _ => pj

/-- `parse_jobject`, parameterized as `parseKeyvalueWith`. -/
def parseJobjectWith (pj : Parser JValue) : Parser JValue :=
  ((((chr '{').withSpaces).thenLazy fun _ =>
    (parseKeyvalueWith pj).sepBy ((chr ',').withSpaces)).skip
    ((chr '}').withSpaces)).map JValue.jobject

/-- `parse_jarray`, parameterized as above. -/
def parseJarrayWith (pj : Parser JValue) : Parser JValue :=
  ((((chr '[').withSpaces).thenLazy fun _ =>
    pj.sepBy ((chr ',').withSpaces)).skip
    ((chr ']').withSpaces)).map JValue.jarray

/-- `parse_json`, with fuel for the recursion through arrays and objects
(the source defers it through `or_lazy`/`then_lazy` thunks; every
recursive entry follows the consumption of at least one character, so
fuel `input length + 1` always suffices).  Fuel exhaustion, which a
sufficient initial fuel makes unreachable, is a retryable failure. -/
def parseJson : Nat → Parser JValue
  | 0 => fun i => .error ⟨true, "out of fuel", i.pos⟩
  | fuel + 1 =>
    ((((((parseJarrayWith (parseJson fuel)).orLazy
      fun _ => parseJobjectWith (parseJson fuel)).orLazy
      fun _ => parseJstring).orLazy
      fun _ => parseJnull).orLazy
      fun _ => parseJbool).orLazy
      fun _ => parseJnumber)

/-- `parse_jarray` at a given fuel. -/
def parseJarray (fuel : Nat) : Parser JValue :=
  parseJarrayWith (parseJson fuel)

/-- `parse_jobject` at a given fuel. -/
def parseJobject (fuel : Nat) : Parser JValue :=
  parseJobjectWith (parseJson fuel)

/-- `Json::from_str`: run the grammar entry point on the whole input. -/
def Json.fromStr (s : List Char) : Except ParseError JValue :=
  (parseJson (s.length + 1)).parse s

/-- Extract the retry flag of a failed result. -/
def errRetry (r : ParseResult α) : Option Bool :=
  match r with
  | .error e => some e.retry
  | .ok _ => none

/-- Extract retry flag and position of a failed top-level result. -/
def errInfo (r : Except ParseError α) : Option (Bool × Nat) :=
  match r with
  | .error e => some (e.retry, e.pos)
  | .ok _ => none

/-- The input of the commitment-law test of `src/json.rs`. -/
def c3input : List Char :=
  "[[null, null ],[null ,null      null] , [ null ] ] ".toList

/-- Number of line breaks in a rendered output. -/
def countNl (s : List Char) : Nat :=
  s.count '\n'

/-- Elements that are neither groups nor carriers of literal line-break
characters: on these, one `Newline` element is one emitted line break. -/
def simpleElem : DocElem → Bool
  | .literal s => !s.contains '\n'
  | .text s => !s.contains '\n'
  | .newline _ => true
  | .flatable _ => false

/-- The number of `Newline` elements in a sequence. -/
def countNewlineElems : List DocElem → Nat
  | [] => 0
  | .newline _ :: ds => countNewlineElems ds + 1
  | _ :: ds => countNewlineElems ds

/-- A two-group document on which the renderer emits more line breaks at
width 16 than at width 10. -/
def docC8 : Doc :=
  ⟨[.flatable [.literal "aaaaaaaaaaaaaa".toList, .newline 0, .literal ['b']],
    .flatable [.literal ['c', 'c'], .newline 0, .literal ['d', 'd'],
               .newline 0, .literal ['e', 'e']]]⟩

end Toyjq

/-!
## Byte-exact model of the parser engine

The model above identifies positions with characters.  The Rust source
actually works on UTF-8 bytes, and its slicing (`&s[a..b]`) panics when a
bound is not a character boundary.  This namespace models the same
functions at the byte level with the panic branches explicit, for the
claims about slicing safety.  Inputs are `List Nat` of byte values;
messages that the source builds with `format!` are abbreviated to fixed
strings (no claim inspects a message). -/

namespace Toyjq.ByteModel

/-- Rust `str::is_char_boundary`: index 0, the total length, or a byte
that is not a UTF-8 continuation byte (`b < 0x80 || b >= 0xC0`). -/
def isCharBoundary (bs : List Nat) (i : Nat) : Bool :=
  if i = 0 then true
  else
    match bs[i]? with
    | some b => decide (b < 128) || decide (192 ≤ b)
    | none => decide (i = bs.length)

/-- Rust slicing `&s[a..b]`: panics (here `.error`) unless `a <= b <=
len` and both bounds are character boundaries. -/
def slice (bs : List Nat) (a b : Nat) : Except String (List Nat) :=
  if a ≤ b ∧ b ≤ bs.length ∧ isCharBoundary bs a ∧ isCharBoundary bs b then
    .ok ((bs.drop a).take (b - a))
  else
    .error "byte index is not a char boundary"

/-- `StrStream` at the byte level. -/
structure BStream where
  body : List Nat
  pos : Nat
deriving DecidableEq

/-- A failed byte-level run: either a `ParseError` or a Rust panic. -/
inductive BFail where
  | perr : ParseError → BFail
  | crash : String → BFail
deriving DecidableEq

/-- Byte-level result. -/
def BResult (α : Type) : Type :=
  Except BFail (BStream × α)

/-- Byte-level parser. -/
def BParser (α : Type) : Type :=
  BStream → BResult α

/-- `StrStream::can_advance`. -/
def BStream.canAdvance (s : BStream) : Bool :=
  s.pos < s.body.length

/-- `StrStream::current`: `&body[pos..len]`, which can panic when `pos`
is not a character boundary. -/
def BStream.current (s : BStream) : Except String (List Nat) :=
  slice s.body s.pos s.body.length

/-- `StrStream::take`: `&cr[0..min(cr.len(), n)]`. -/
def BStream.take (s : BStream) (n : Nat) : Except String (List Nat) :=
  match s.current with
  | .error m => .error m
  | .ok cr => slice cr 0 (min cr.length n)

/-- `StrStream::advance`. -/
def BStream.advance (s : BStream) (n : Nat) : BStream :=
  { s with pos := s.pos + n }

/-- The first character of a slice, as `.chars().next()` sees it.  A
boundary-valid slice produced by `take 1` is a single byte; it decodes
exactly when it is ASCII (a non-ASCII lead byte would have made the
boundary check of `take 1` panic first on valid UTF-8). -/
def decodeFirst : List Nat → Option Char
  | b :: _ => if b < 128 then some (Char.ofNat b) else none
  | [] => none

/-- `unit`. -/
def unit (x : α) : BParser α := fun i =>
  .ok (i, x)

/-- `string` at the byte level; the pattern is given by its UTF-8 bytes. -/
def string (s : List Nat) : BParser (List Nat) := fun input =>
  if input.canAdvance then
    match input.take s.length with
    | .error m => .error (.crash m)
    | .ok heads =>
      if s = heads then
        .ok (input.advance s.length, s)
      else
        .error (.perr ⟨true, "Expected (string literal).", input.pos⟩)
  else
    .error (.perr ⟨true, "Reaches end.", input.pos⟩)

/-- `chr` at the byte level: take one byte (possible boundary panic),
decode it (`unwrap` panic on failure), compare. -/
def chr (c : Char) : BParser Char := fun input =>
  if input.canAdvance then
    match input.take 1 with
    | .error m => .error (.crash m)
    | .ok heads =>
      match decodeFirst heads with
      | none => .error (.crash "called Option::unwrap() on a None value")
      | some head =>
        if c = head then
          .ok (input.advance 1, c)
        else
          .error (.perr ⟨true, "Expected (char).", input.pos⟩)
  else
    .error (.perr ⟨true, "Reaches end.", input.pos⟩)

/-- `failure`. -/
def failure (message : String) : BParser Unit := fun input =>
  .error (.perr ⟨true, message, input.pos⟩)

/-- The `while` loop of `until` at the byte level: advance one byte at a
time until the pattern matches the residual prefix; each probe can
panic. -/
def untilLoop (s body : List Nat) : Nat → Nat → Except String (Option Nat)
  | _, 0 => .ok none
  | pos, fuel + 1 =>
    if pos < body.length then
      match BStream.take ⟨body, pos⟩ s.length with
      | .error m => .error m
      | .ok heads =>
        if s = heads then .ok (some pos)
        else untilLoop s body (pos + 1) fuel
    else .ok none

/-- `until` at the byte level, including the final slice
`&body[initpos..pos]`. -/
def untilB (s : List Nat) : BParser (List Nat) := fun input =>
  match untilLoop s input.body input.pos (input.body.length + 1 - input.pos) with
  | .error m => .error (.crash m)
  | .ok (some p) =>
    match slice input.body input.pos p with
    | .error m => .error (.crash m)
    | .ok sl => .ok (⟨input.body, p⟩, sl)
  | .ok none => .error (.perr ⟨true, "Reaches end.", input.pos⟩)

/-- `Parser::map`; a panic propagates through every combinator below. -/
def BParser.map (p : BParser α) (f : α → β) : BParser β := fun input =>
  match p input with
  | .ok (input2, x) => .ok (input2, f x)
  | .error e => .error e

/-- `Parser::map_`. -/
def BParser.mapConst (p : BParser α) (x : β) : BParser β := fun input =>
  match p input with
  | .ok (input2, _) => .ok (input2, x)
  | .error e => .error e

/-- `Parser::flat_map` (commitment rule on `ParseError`s only — a panic
is not a value the `map_err` of the source ever sees). -/
def BParser.flatMap (p : BParser α) (f : α → BParser β) : BParser β := fun input =>
  match p input with
  | .error e => .error e
  | .ok (input2, o) =>
    let retry := input.pos == input2.pos
    match f o input2 with
    | .ok r => .ok r
    | .error (.perr e) => .error (.perr ⟨retry, e.message, e.pos⟩)
    | .error (.crash m) => .error (.crash m)

/-- `Parser::then`. -/
def BParser.thenP (p : BParser α) (q : BParser β) : BParser β := fun input =>
  match p input with
  | .error e => .error e
  | .ok (input2, _) =>
    let retry := input.pos == input2.pos
    match q input2 with
    | .ok r => .ok r
    | .error (.perr e) => .error (.perr ⟨retry, e.message, e.pos⟩)
    | .error (.crash m) => .error (.crash m)

/-- `Parser::then_lazy`. -/
def BParser.thenLazy (p : BParser α) (f : Unit → BParser β) : BParser β :=
  p.flatMap fun _ => f ()

/-- `Parser::skip`. -/
def BParser.skip (p : BParser α) (q : BParser β) : BParser α := fun input =>
  match p input with
  | .error e => .error e
  | .ok (input2, v) =>
    let retry := input.pos == input2.pos
    match q input2 with
    | .ok (input3, _) => .ok (input3, v)
    | .error (.perr e) => .error (.perr ⟨retry, e.message, e.pos⟩)
    | .error (.crash m) => .error (.crash m)

/-- `Parser::and`. -/
def BParser.and (p : BParser α) (q : BParser β) : BParser (α × β) := fun input =>
  match p input with
  | .error e => .error e
  | .ok (input2, o) =>
    let retry := input.pos == input2.pos
    match q input2 with
    | .ok (input3, o2) => .ok (input3, (o, o2))
    | .error (.perr e) => .error (.perr ⟨retry, e.message, e.pos⟩)
    | .error (.crash m) => .error (.crash m)

/-- `Parser::and_lazy`. -/
def BParser.andLazy (p : BParser α) (f : Unit → BParser β) : BParser (α × β) := fun input =>
  match p input with
  | .error e => .error e
  | .ok (input2, o) =>
    let retry := input.pos == input2.pos
    match f () input2 with
    | .ok (input3, o2) => .ok (input3, (o, o2))
    | .error (.perr e) => .error (.perr ⟨retry, e.message, e.pos⟩)
    | .error (.crash m) => .error (.crash m)

/-- `Parser::or`: only a `retry = true` `ParseError` is caught; a panic
unwinds. -/
def BParser.or (p q : BParser α) : BParser α := fun input =>
  match p input with
  | .ok o => .ok o
  | .error (.perr ⟨true, _, _⟩) => q input
  | .error e => .error e

/-- `Parser::or_lazy`. -/
def BParser.orLazy (p : BParser α) (f : Unit → BParser α) : BParser α := fun input =>
  match p input with
  | .ok o => .ok o
  | .error (.perr ⟨true, _, _⟩) => f () input
  | .error e => .error e

/-- `Parser::or_not`: catches any `ParseError` (not a panic). -/
def BParser.orNot (p : BParser α) : BParser (Option α) := fun input =>
  match p input with
  | .ok (input2, v) => .ok (input2, some v)
  | .error (.perr _) => .ok (input, none)
  | .error (.crash m) => .error (.crash m)

/-- `Parser::try`. -/
def BParser.tryP (p : BParser α) : BParser α := fun input =>
  match p input with
  | .ok o => .ok o
  | .error (.perr e) => .error (.perr ⟨true, e.message, input.pos⟩)
  | .error (.crash m) => .error (.crash m)

/-- The loop of `many` with explicit fuel, as in the main model. -/
def manyLoop (p : BParser α) : Nat → BStream → List α → BResult (List α)
  | 0, i, v => .ok (i, v)
  | fuel + 1, i, v =>
    match p i with
    | .ok (input2, o) => manyLoop p fuel input2 (v ++ [o])
    | .error (.perr ⟨true, _, _⟩) => .ok (i, v)
    | .error e => .error e

/-- `Parser::many`. -/
def BParser.manyP (p : BParser α) : BParser (List α) := fun input =>
  manyLoop p (input.body.length + 1) input []

/-- The loop of `sep_by` with explicit fuel. -/
def sepByLoop (p : BParser α) (d : BParser β) : Nat → BStream → List α → BResult (List α)
  | 0, i, v => .ok (i, v)
  | fuel + 1, i, v =>
    match d i with
    | .ok (input3, _) =>
      match p input3 with
      | .ok (input4, o) => sepByLoop p d fuel input4 (v ++ [o])
      | .error e => .error e
    | .error (.perr ⟨true, _, _⟩) => .ok (i, v)
    | .error e => .error e

/-- `Parser::sep_by` (the first-element case absorbs any `ParseError`). -/
def BParser.sepBy (p : BParser α) (d : BParser β) : BParser (List α) := fun input =>
  match p input with
  | .ok (input2, o) => sepByLoop p d (input.body.length + 1) input2 [o]
  | .error (.perr _) => .ok (input, [])
  | .error (.crash m) => .error (.crash m)

/-- `Parser::with_spaces` (`' '` is byte 32). -/
def BParser.withSpaces (p : BParser α) : BParser α :=
  ((((chr ' ').manyP).thenP p).skip ((chr ' ').manyP)).tryP

/-- `or_from` (the `[]` case is the `unwrap` panic of the source). -/
def orFrom (ps : List (BParser α)) : BParser α :=
  match ps with
  | [] => fun _ => .error (.crash "called Option::unwrap() on a None value")
  | p0 :: rest => rest.foldl (fun acc p => (acc.tryP).or p) p0

/-- Every byte of the input is ASCII. -/
def allAscii (bs : List Nat) : Bool :=
  bs.all fun b => b < 128

/-- Safety of a byte-level parser on ASCII input from an in-bounds
cursor: it never reaches a panic branch, and any cursor it produces is
in bounds on the same input (`0 <= pos` holds in `Nat`). -/
def BGood (p : BParser α) : Prop :=
  ∀ i : BStream, allAscii i.body = true → i.pos ≤ i.body.length →
    (∀ m, p i ≠ .error (.crash m)) ∧
    (∀ i' v, p i = .ok (i', v) → i'.body = i.body ∧ i'.pos ≤ i'.body.length)

/-- The parsers built from the library's primitives and combinators. -/
inductive Built : {α : Type} → BParser α → Prop where
  | unit {α : Type} (x : α) : Built (unit x)
  | string (s : List Nat) : Built (string s)
  | chr (c : Char) : Built (chr c)
  | untilB (s : List Nat) : Built (untilB s)
  | failure (m : String) : Built (failure m)
  | map {α β : Type} {p : BParser α} (f : α → β) :
      Built p → Built (p.map f)
  | mapConst {α β : Type} {p : BParser α} (x : β) :
      Built p → Built (p.mapConst x)
  | flatMap {α β : Type} {p : BParser α} {f : α → BParser β} :
      Built p → (∀ t, Built (f t)) → Built (p.flatMap f)
  | thenP {α β : Type} {p : BParser α} {q : BParser β} :
      Built p → Built q → Built (p.thenP q)
  | thenLazy {α β : Type} {p : BParser α} {f : Unit → BParser β} :
      Built p → (∀ u, Built (f u)) → Built (p.thenLazy f)
  | skip {α β : Type} {p : BParser α} {q : BParser β} :
      Built p → Built q → Built (p.skip q)
  | and {α β : Type} {p : BParser α} {q : BParser β} :
      Built p → Built q → Built (p.and q)
  | andLazy {α β : Type} {p : BParser α} {f : Unit → BParser β} :
      Built p → (∀ u, Built (f u)) → Built (p.andLazy f)
  | or {α : Type} {p q : BParser α} :
      Built p → Built q → Built (p.or q)
  | orLazy {α : Type} {p : BParser α} {f : Unit → BParser α} :
      Built p → (∀ u, Built (f u)) → Built (p.orLazy f)
  | orNot {α : Type} {p : BParser α} :
      Built p → Built p.orNot
  | tryP {α : Type} {p : BParser α} :
      Built p → Built p.tryP
  | manyP {α : Type} {p : BParser α} :
      Built p → Built p.manyP
  | sepBy {α β : Type} {p : BParser α} {d : BParser β} :
      Built p → Built d → Built (p.sepBy d)
  | withSpaces {α : Type} {p : BParser α} :
      Built p → Built p.withSpaces
  | orFrom {α : Type} {ps : List (BParser α)} :
      ps ≠ [] → (∀ p ∈ ps, Built p) → Built (orFrom ps)

end Toyjq.ByteModel

namespace Toyjq

/-! ## Pretty-printer theorems -/

mutual
/-- Flat width of one element agrees with the length of its flattened
print. -/
theorem flatWidthE_eq_length : ∀ d : DocElem, flatWidthE d = ((flattenWalkE d).length : Int)
  | .literal s => by simp [flatWidthE, flattenWalkE]
  | .text s => by simp [flatWidthE, flattenWalkE]
  | .newline i => by simp [flatWidthE, flattenWalkE]
  | .flatable ds => by
      rw [flatWidthE, flattenWalkE, flatWidthL_eq_length ds]

/-- Flat width of a sequence agrees with the length of its flattened
print. -/
theorem flatWidthL_eq_length : ∀ ds : List DocElem, flatWidthL ds = ((flattenWalkL ds).length : Int)
  | [] => by simp [flatWidthL, flattenWalkL]
  | d :: ds => by
      rw [flatWidthL, flattenWalkL, flatWidthE_eq_length d, flatWidthL_eq_length ds]
      simp
end

/-- C7: for every sequence of `DocElem`s, `flat_doc_width` equals the
length of the string `flatten_print` produces on it — literal and text
count their length, each `Newline` counts 1 (one space), and `Flatable`
children are flattened recursively. -/
theorem c7_flat_width_is_flattened_length :
    ∀ ds : List DocElem, flatDocWidth ds = ((flattenPrint ds).length : Int) :=
  fun ds => flatWidthL_eq_length ds

/-- C2: the claim fails on the code — when a fitting `Flatable` group is
flattened, the source executes `*rest_width -= ret.len()`, subtracting
the length of the whole accumulated output, not the length of the
flattened form.  On `[Literal "ab", Flatable [Literal "c"]]` at width 10
the flattened form `"c"` (flat width 1) is appended after `"ab"`, and
`rest_width` drops from 8 to 5 instead of to 7. -/
theorem c2_flatten_overdecrements_rest_width :
    prettyWalkL 10 [.literal ['a', 'b'], .flatable [.literal ['c']]] ⟨10, 0, []⟩
      = ⟨5, 0, ['a', 'b', 'c']⟩ ∧
    flatDocWidth [.literal ['c']] = 1 ∧
    ((10 : Int) - 2) - flatDocWidth [.literal ['c']] ≠ (5 : Int) := by
  refine ⟨rfl, rfl, by decide⟩

/-- C5: a `Flatable` with zero children emits no output in both branches
of the fit decision, and leaves `rest_width` unchanged in the expand
branch; but in the fit branch (flat width 0 fits a nonnegative
`rest_width`) the source still subtracts `ret.len()`, so with prior
output `"ab"` at width 10 `rest_width` drops from 8 to 6 instead of
staying 8. -/
theorem c5_empty_group_costs_output_length :
    prettyWalkL 10 [.literal ['a', 'b'], .flatable []] ⟨10, 0, []⟩
      = ⟨6, 0, ['a', 'b']⟩ ∧
    prettyWalkE 10 (.flatable []) ⟨-1, 0, ['a', 'b']⟩ = ⟨-1, 0, ['a', 'b']⟩ := by
  refine ⟨rfl, rfl⟩

/-- C8, counterexample: on `docC8`, rendering at the smaller width 10
emits one line break while rendering at the larger width 16 emits two —
shrinking the width lost a line break, contradicting the claimed
monotonicity. -/
theorem c8_counterexample_width_not_monotone :
    countNl (docC8.pretty 10) < countNl (docC8.pretty 16) := by
  decide

/-- Flattening a group-free sequence whose texts carry no literal line
breaks produces no line breaks. -/
theorem flatten_simple_no_nl :
    ∀ ds : List DocElem, ds.all simpleElem = true → countNl (flattenWalkL ds) = 0 := by
  intro ds h
  induction ds with
  | nil => rfl
  | cons d ds ih =>
    rw [List.all_cons, Bool.and_eq_true] at h
    rw [flattenWalkL]
    show (flattenWalkE d ++ flattenWalkL ds).count '\n' = 0
    rw [List.count_append]
    have hds := ih h.2
    cases d with
    | literal s =>
      have hnm : ¬ '\n' ∈ s := by
        have hs := h.1
        simp [simpleElem] at hs
        exact hs
      simp [flattenWalkE, List.count_eq_zero.mpr hnm, hds, countNl] at *
      exact hds
    | text s =>
      have hnm : ¬ '\n' ∈ s := by
        have hs := h.1
        simp [simpleElem] at hs
        exact hs
      simp [flattenWalkE, List.count_eq_zero.mpr hnm, hds, countNl] at *
      exact hds
    | newline i =>
      simp [flattenWalkE, countNl] at *
      exact hds
    | flatable ds2 =>
      simp [simpleElem] at h

/-- Walking a group-free, line-break-free sequence adds exactly one line
break per `Newline` element, whatever the state. -/
theorem walk_simple_counts_newlines (w : Int) :
    ∀ (ds : List DocElem) (st : PState), ds.all simpleElem = true →
      countNl (prettyWalkL w ds st).ret = countNl st.ret + countNewlineElems ds := by
  intro ds
  induction ds with
  | nil => intro st _; simp [prettyWalkL, countNewlineElems]
  | cons d ds ih =>
    intro st h
    rw [List.all_cons, Bool.and_eq_true] at h
    rw [prettyWalkL, ih _ h.2]
    cases d with
    | literal s =>
      have hnm : ¬ '\n' ∈ s := by
        have hs := h.1
        simp [simpleElem] at hs
        exact hs
      simp [prettyWalkE, countNl, List.count_append, List.count_eq_zero.mpr hnm,
        countNewlineElems]
    | text s =>
      have hnm : ¬ '\n' ∈ s := by
        have hs := h.1
        simp [simpleElem] at hs
        exact hs
      simp [prettyWalkE, countNl, List.count_append, List.count_eq_zero.mpr hnm,
        countNewlineElems]
    | newline i =>
      simp [prettyWalkE, countNl, List.count_append, countNewlineElems,
        List.count_replicate]
      omega
    | flatable ds2 =>
      simp [simpleElem] at h

/-- C8, amended: monotonicity does hold for a document consisting of a
single group whose children are group-free and contain no literal line
break characters: rendering such a document at a smaller width emits at
least as many line breaks as at a larger width (the group expands at the
smaller width whenever it expands at the larger one). -/
theorem c8_amended_single_group_monotone :
    ∀ (ds : List DocElem) (w1 w2 : Int), ds.all simpleElem = true → w1 ≤ w2 →
      countNl (Doc.pretty ⟨[.flatable ds]⟩ w2) ≤ countNl (Doc.pretty ⟨[.flatable ds]⟩ w1) := by
  intro ds w1 w2 h hw
  have hpretty : ∀ w : Int, countNl (Doc.pretty ⟨[.flatable ds]⟩ w)
      = if flatDocWidth ds ≤ w then 0 else countNewlineElems ds := by
    intro w
    show countNl (prettyWalkL w [.flatable ds] ⟨w, 0, []⟩).ret = _
    rw [prettyWalkL, prettyWalkL, prettyWalkE]
    by_cases hfit : flatDocWidth ds ≤ w
    · simp only [hfit, if_true, if_pos hfit]
      show countNl ([] ++ flattenPrint ds) = 0
      rw [List.nil_append]
      exact flatten_simple_no_nl ds h
    · simp only [hfit, if_false, if_neg hfit]
      rw [walk_simple_counts_newlines w ds _ h]
      simp [countNl]
  rw [hpretty w1, hpretty w2]
  by_cases h1 : flatDocWidth ds ≤ w1
  · have h2 : flatDocWidth ds ≤ w2 := le_trans h1 hw
    simp [h1, h2]
  · by_cases h2 : flatDocWidth ds ≤ w2 <;> simp [h1, h2]

/-- C8 amended, witness: `[Newline 0]` (flat width 1) at widths 0 and 5:
the larger width flattens (no break), the smaller expands (one break). -/
theorem c8_amended_witness :
    countNl (Doc.pretty ⟨[.flatable [.newline 0]]⟩ 5)
      ≤ countNl (Doc.pretty ⟨[.flatable [.newline 0]]⟩ 0) :=
  c8_amended_single_group_monotone [.newline 0] 0 5 (by rfl) (by decide)

/-! ## Parser-combinator theorems -/

/-- C1, counterexample: the sequencing combinators do not keep the second
parser's own retry flag when the first consumed nothing — they overwrite
it.  `string "ab" then string "cd"` fails on `"abxx"` with
`retry = false` (committed), yet prefixing it with the non-consuming
`unit 0` via `flat_map` reports that same failure with `retry = true`. -/
theorem c1_counterexample_retry_overwritten :
    errRetry (((string ['a', 'b']).thenP (string ['c', 'd'])) ⟨['a', 'b', 'x', 'x'], 0⟩)
      = some false ∧
    errRetry (((unit 0).flatMap fun _ : Nat => (string ['a', 'b']).thenP (string ['c', 'd']))
        ⟨['a', 'b', 'x', 'x'], 0⟩)
      = some true := by
  refine ⟨rfl, rfl⟩

/-- C1, amended: for `flat_map`, `then`, `and` and `skip`, when the first
parser succeeds and the second fails, the combined failure keeps the
second parser's message and position but its retry flag is set to
whether the first parser consumed no input (`i.pos == i2.pos`),
regardless of the second parser's own flag — in particular it is `false`
whenever the first parser advanced the cursor. -/
theorem c1_amended_commitment_rule {α β : Type} :
    (∀ (p : Parser α) (f : α → Parser β) (i i2 : StrStream) (v : α) (e : ParseError),
      p i = .ok (i2, v) → f v i2 = .error e →
      p.flatMap f i = .error ⟨i.pos == i2.pos, e.message, e.pos⟩) ∧
    (∀ (p : Parser α) (q : Parser β) (i i2 : StrStream) (v : α) (e : ParseError),
      p i = .ok (i2, v) → q i2 = .error e →
      p.thenP q i = .error ⟨i.pos == i2.pos, e.message, e.pos⟩) ∧
    (∀ (p : Parser α) (q : Parser β) (i i2 : StrStream) (v : α) (e : ParseError),
      p i = .ok (i2, v) → q i2 = .error e →
      p.and q i = .error ⟨i.pos == i2.pos, e.message, e.pos⟩) ∧
    (∀ (p : Parser α) (q : Parser β) (i i2 : StrStream) (v : α) (e : ParseError),
      p i = .ok (i2, v) → q i2 = .error e →
      p.skip q i = .error ⟨i.pos == i2.pos, e.message, e.pos⟩) := by
  refine ⟨?_, ?_, ?_, ?_⟩ <;>
    · intro p pq i i2 v e h1 h2
      simp [Parser.flatMap, Parser.thenP, Parser.and, Parser.skip, h1, h2]

/-- C1 amended, witness: `string "a"` consumes one character of `"ax"`,
then `string "b"` fails with its own `retry = true`; all four combinators
report the failure with `retry = false`. -/
theorem c1_amended_witness :
    ((string ['a']).flatMap fun _ => string ['b']) ⟨['a', 'x'], 0⟩
      = .error ⟨false, expectedMsg ['b'] ['x'], 1⟩ ∧
    ((string ['a']).thenP (string ['b'])) ⟨['a', 'x'], 0⟩
      = .error ⟨false, expectedMsg ['b'] ['x'], 1⟩ ∧
    ((string ['a']).and (string ['b'])) ⟨['a', 'x'], 0⟩
      = .error ⟨false, expectedMsg ['b'] ['x'], 1⟩ ∧
    ((string ['a']).skip (string ['b'])) ⟨['a', 'x'], 0⟩
      = .error ⟨false, expectedMsg ['b'] ['x'], 1⟩ :=
  ⟨c1_amended_commitment_rule.1 (string ['a']) (fun _ => string ['b'])
      ⟨['a', 'x'], 0⟩ ⟨['a', 'x'], 1⟩ ['a'] ⟨true, expectedMsg ['b'] ['x'], 1⟩ rfl rfl,
   c1_amended_commitment_rule.2.1 (string ['a']) (string ['b'])
      ⟨['a', 'x'], 0⟩ ⟨['a', 'x'], 1⟩ ['a'] ⟨true, expectedMsg ['b'] ['x'], 1⟩ rfl rfl,
   c1_amended_commitment_rule.2.2.1 (string ['a']) (string ['b'])
      ⟨['a', 'x'], 0⟩ ⟨['a', 'x'], 1⟩ ['a'] ⟨true, expectedMsg ['b'] ['x'], 1⟩ rfl rfl,
   c1_amended_commitment_rule.2.2.2 (string ['a']) (string ['b'])
      ⟨['a', 'x'], 0⟩ ⟨['a', 'x'], 1⟩ ['a'] ⟨true, expectedMsg ['b'] ['x'], 1⟩ rfl rfl⟩

/-- C4, counterexample: `sep_by`'s first-element case absorbs a committed
failure.  `string "ab" then string "cd"` fails on `"abxx"` with
`retry = false`, yet `sep_by` yields the empty sequence without
consuming input instead of propagating that failure. -/
theorem c4_counterexample_committed_failure_absorbed :
    (((string ['a', 'b']).thenP (string ['c', 'd'])).sepBy (chr ',')) ⟨['a', 'b', 'x', 'x'], 0⟩
      = .ok (⟨['a', 'b', 'x', 'x'], 0⟩, []) ∧
    errRetry (((string ['a', 'b']).thenP (string ['c', 'd'])) ⟨['a', 'b', 'x', 'x'], 0⟩)
      = some false := by
  refine ⟨rfl, rfl⟩

/-- C4, amended: a failure of the first element makes `sep_by` yield the
empty sequence without consuming input, regardless of that failure's
retry flag (the source matches `Err(_)`). -/
theorem c4_amended_first_failure_yields_empty :
    ∀ (p : Parser α) (d : Parser β) (i : StrStream) (e : ParseError),
      p i = .error e → p.sepBy d i = .ok (i, []) := by
  intro p d i e h
  simp [Parser.sepBy, h]

/-- C4 amended, witness: the committed first-element failure of the
counterexample parser is absorbed into an empty sequence. -/
theorem c4_amended_witness :
    (((string ['a', 'b']).thenP (string ['c', 'd'])).sepBy (chr ',')) ⟨['a', 'b', 'x', 'x'], 0⟩
      = .ok (⟨['a', 'b', 'x', 'x'], 0⟩, []) :=
  c4_amended_first_failure_yields_empty
    ((string ['a', 'b']).thenP (string ['c', 'd'])) (chr ',')
    ⟨['a', 'b', 'x', 'x'], 0⟩ ⟨false, expectedMsg ['c', 'd'] ['x', 'x'], 2⟩ rfl

/-- C6: once at least one element has been parsed, a failure of the
element parser after a successful delimiter is propagated unchanged by
`sep_by`, whatever its retry flag: first for the loop (any number of
elements already accumulated), then for a full `sep_by` run whose first
element succeeded. -/
theorem c6_element_failure_after_delim_propagates {α β : Type} :
    (∀ (p : Parser α) (d : Parser β) (fuel : Nat) (i i3 : StrStream) (x : β)
        (e : ParseError) (v : List α),
      d i = .ok (i3, x) → p i3 = .error e →
      sepByLoop p d (fuel + 1) i v = .error e) ∧
    (∀ (p : Parser α) (d : Parser β) (i i2 i3 : StrStream) (v1 : α) (x : β)
        (e : ParseError),
      p i = .ok (i2, v1) → d i2 = .ok (i3, x) → p i3 = .error e →
      p.sepBy d i = .error e) := by
  constructor
  · intro p d fuel i i3 x e v hd hp
    simp [sepByLoop, hd, hp]
  · intro p d i i2 i3 v1 x e hp hd hq
    simp [Parser.sepBy, hp, sepByLoop, hd, hq]

/-- C6, witness: after the first `"a"` parses, the delimiter `,` parses,
and the element parser fails on `"b"` with `retry = true`; the failure is
still propagated (the sequence does not end at the trailing
delimiter). -/
theorem c6_witness :
    sepByLoop (string ['a']) (chr ',') 5 ⟨[',', 'b'], 0⟩ []
      = .error ⟨true, expectedMsg ['a'] ['b'], 1⟩ ∧
    ((string ['a']).sepBy (chr ',')) ⟨['a', ',', 'b'], 0⟩
      = .error ⟨true, expectedMsg ['a'] ['b'], 2⟩ :=
  ⟨c6_element_failure_after_delim_propagates.1 (string ['a']) (chr ',') 4
      ⟨[',', 'b'], 0⟩ ⟨[',', 'b'], 1⟩ ',' ⟨true, expectedMsg ['a'] ['b'], 1⟩ [] rfl rfl,
   c6_element_failure_after_delim_propagates.2 (string ['a']) (chr ',')
      ⟨['a', ',', 'b'], 0⟩ ⟨['a', ',', 'b'], 1⟩ ⟨['a', ',', 'b'], 2⟩ ['a'] ','
      ⟨true, expectedMsg ['a'] ['b'], 2⟩ rfl rfl rfl⟩

/-- C10: `try` rewrites any failure of the wrapped parser to
`retry = true` and replaces the reported position by the offset at which
the parser was started, keeping only the message. -/
theorem c10_try_resets_retry_and_pos :
    ∀ (p : Parser α) (i : StrStream) (e : ParseError),
      p i = .error e → p.tryP i = .error ⟨true, e.message, i.pos⟩ := by
  intro p i e h
  simp [Parser.tryP, h]

/-- C10, witness: the committed failure of `string "a" then string "b"`
on `"ax"` at position 1 is rewritten by `try` to a retryable failure at
the starting position 0. -/
theorem c10_witness :
    ((string ['a']).thenP (string ['b'])).tryP ⟨['a', 'x'], 0⟩
      = .error ⟨true, expectedMsg ['b'] ['x'], 0⟩ :=
  c10_try_resets_retry_and_pos ((string ['a']).thenP (string ['b']))
    ⟨['a', 'x'], 0⟩ ⟨false, expectedMsg ['b'] ['x'], 1⟩ rfl

/-- C3: on the input
`"[[null, null ],[null ,null      null] , [ null ] ] "` the JSON entry
point fails, and the reported failure has `retry = false` and position
26 (the byte offset of the run of spaces before the second `null`
missing its comma). -/
theorem c3_commitment_failure_at_26 :
    errInfo (Json.fromStr c3input) = some (false, 26) := by
  rfl

end Toyjq

namespace Toyjq.ByteModel

/-! ## Byte-level safety lemmas -/

/-- Members of an all-ASCII byte list are below 128. -/
theorem lt_128_of_mem_ascii {bs : List Nat} (h : allAscii bs = true) {b : Nat}
    (hb : b ∈ bs) : b < 128 := by
  have := List.all_eq_true.mp h b hb
  simpa using this

/-- Every in-range index of an all-ASCII byte list is a character
boundary. -/
theorem ascii_isCharBoundary {bs : List Nat} (h : allAscii bs = true) {i : Nat}
    (hi : i ≤ bs.length) : isCharBoundary bs i = true := by
  unfold isCharBoundary
  by_cases h0 : i = 0
  · simp [h0]
  · simp only [h0, if_false]
    rcases lt_or_eq_of_le hi with hlt | heq
    · have hget : bs[i]? = some bs[i] := List.getElem?_eq_getElem hlt
      rw [hget]
      have : bs[i] < 128 := lt_128_of_mem_ascii h (bs.getElem_mem hlt)
      simp [this]
    · have hget : bs[i]? = none := by
        rw [List.getElem?_eq_none_iff]
        omega
      rw [hget]
      simp [heq]

/-- A drop of an all-ASCII list is all-ASCII. -/
theorem allAscii_drop {bs : List Nat} (h : allAscii bs = true) (k : Nat) :
    allAscii (bs.drop k) = true := by
  unfold allAscii
  rw [List.all_eq_true]
  intro b hb
  have : b ∈ bs := List.mem_of_mem_drop hb
  simpa using lt_128_of_mem_ascii h this

/-- Slicing an all-ASCII list with ordered in-range bounds succeeds. -/
theorem slice_ascii {bs : List Nat} (h : allAscii bs = true) {a b : Nat}
    (hab : a ≤ b) (hb : b ≤ bs.length) :
    slice bs a b = .ok ((bs.drop a).take (b - a)) := by
  unfold slice
  rw [if_pos]
  exact ⟨hab, hb, ascii_isCharBoundary h (le_trans hab hb), ascii_isCharBoundary h hb⟩

/-- `current` on ASCII input with an in-range cursor is the residual. -/
theorem current_ascii {i : BStream} (h : allAscii i.body = true)
    (hp : i.pos ≤ i.body.length) : i.current = .ok (i.body.drop i.pos) := by
  unfold BStream.current
  rw [slice_ascii h hp le_rfl]
  congr 1
  exact List.take_of_length_le (by simp)

/-- `take` on ASCII input with an in-range cursor is an ordinary list
`take` of the residual. -/
theorem take_ascii {i : BStream} (h : allAscii i.body = true)
    (hp : i.pos ≤ i.body.length) (n : Nat) :
    i.take n = .ok ((i.body.drop i.pos).take n) := by
  have hascii2 : allAscii (i.body.drop i.pos) = true := allAscii_drop h i.pos
  unfold BStream.take
  rw [current_ascii h hp]
  dsimp only
  rw [slice_ascii hascii2 (Nat.zero_le _) (min_le_left _ _)]
  simp only [List.drop_zero, Nat.sub_zero]
  congr 1
  rcases le_total n (i.body.drop i.pos).length with hle | hle
  · rw [min_eq_right hle]
  · rw [min_eq_left hle, List.take_of_length_le le_rfl, List.take_of_length_le hle]

/-- `unit` is safe. -/
theorem bgood_unit (x : α) : BGood (unit x) := by
  intro i _ hp
  constructor
  · intro m hcontra
    cases hcontra
  · intro i' v hok
    cases hok
    exact ⟨rfl, hp⟩

/-- `failure` is safe. -/
theorem bgood_failure (m : String) : BGood (failure m) := by
  intro i _ _
  constructor
  · intro m' hcontra
    cases hcontra
  · intro i' v hok
    cases hok

/-- `string` is safe. -/
theorem bgood_string (s : List Nat) : BGood (string s) := by
  intro i hascii hp
  constructor
  · intro m hcontra
    simp only [string, take_ascii hascii hp] at hcontra
    split at hcontra
    · split at hcontra
      · injection hcontra
      · injection hcontra with h
        injection h
    · injection hcontra with h
      injection h
  · intro i' v hok
    simp only [string, take_ascii hascii hp] at hok
    split at hok
    · split at hok
      case isTrue hs =>
        cases hok
        have hlen : s.length ≤ i.body.length - i.pos := by
          have hl := congrArg List.length hs
          simp only [List.length_take, List.length_drop] at hl
          omega
        refine ⟨rfl, ?_⟩
        simp only [BStream.advance]
        omega
      case isFalse => injection hok
    · injection hok

/-- `chr` is safe. -/
theorem bgood_chr (c : Char) : BGood (chr c) := by
  intro i hascii hp
  cases hca : i.canAdvance with
  | false =>
    constructor
    · intro m hcontra
      simp only [chr, hca] at hcontra
      injection hcontra with h
      injection h
    · intro i' v hok
      simp only [chr, hca] at hok
      injection hok
  | true =>
    have hlt : i.pos < i.body.length := by
      unfold BStream.canAdvance at hca
      exact of_decide_eq_true hca
    obtain ⟨b, rest, hdrop⟩ : ∃ b rest, i.body.drop i.pos = b :: rest := by
      cases hd : i.body.drop i.pos with
      | nil =>
        have hl := congrArg List.length hd
        simp only [List.length_drop, List.length_nil] at hl
        omega
      | cons b rest => exact ⟨b, rest, rfl⟩
    have hb : b < 128 := by
      refine lt_128_of_mem_ascii hascii (List.mem_of_mem_drop (n := i.pos) ?_)
      rw [hdrop]
      exact List.mem_cons_self _ _
    have htake1 : i.take 1 = .ok [b] := by
      rw [take_ascii hascii hp 1, hdrop]
      rfl
    constructor
    · intro m hcontra
      simp only [chr, hca, htake1, decodeFirst, hb, if_pos, if_true] at hcontra
      split at hcontra
      · injection hcontra
      · injection hcontra with h
        injection h
    · intro i' v hok
      simp only [chr, hca, htake1, decodeFirst, hb, if_pos, if_true] at hok
      split at hok
      case isTrue =>
        cases hok
        refine ⟨rfl, ?_⟩
        simp only [BStream.advance]
        omega
      case isFalse => injection hok

/-- On ASCII input `untilLoop` never reaches a panic branch. -/
theorem untilLoop_no_crash {s body : List Nat} (hascii : allAscii body = true) :
    ∀ (fuel pos : Nat) (m : String), untilLoop s body pos fuel ≠ .error m := by
  intro fuel
  induction fuel with
  | zero =>
    intro pos m h
    simp only [untilLoop] at h
    injection h
  | succ fuel ih =>
    intro pos m h
    simp only [untilLoop] at h
    split at h
    case isTrue hlt =>
      rw [take_ascii (i := ⟨body, pos⟩) hascii (le_of_lt hlt)] at h
      dsimp only at h
      split at h
      · injection h
      · exact ih (pos + 1) m h
    case isFalse => injection h

/-- A successful `untilLoop` stops at a position between the start and
the end of the input. -/
theorem untilLoop_some_bounds {s body : List Nat} :
    ∀ (fuel pos p : Nat), untilLoop s body pos fuel = .ok (some p) →
      pos ≤ p ∧ p < body.length := by
  intro fuel
  induction fuel with
  | zero =>
    intro pos p h
    simp only [untilLoop] at h
    injection h with h2
    cases h2
  | succ fuel ih =>
    intro pos p h
    simp only [untilLoop] at h
    split at h
    case isTrue hlt =>
      cases htk : BStream.take ⟨body, pos⟩ s.length with
      | error m => rw [htk] at h; injection h
      | ok heads =>
        rw [htk] at h
        dsimp only at h
        split at h
        · injection h with h2
          injection h2 with h3
          subst h3
          exact ⟨le_rfl, hlt⟩
        · have := ih (pos + 1) p h
          omega
    case isFalse =>
      injection h with h2
      cases h2

/-- `until` is safe. -/
theorem bgood_untilB (s : List Nat) : BGood (untilB s) := by
  intro i hascii hpos
  cases hul : untilLoop s i.body i.pos (i.body.length + 1 - i.pos) with
  | error m => exact absurd hul (untilLoop_no_crash hascii _ _ m)
  | ok o =>
    cases o with
    | none =>
      constructor
      · intro m hcontra
        simp only [untilB, hul] at hcontra
        injection hcontra with h
        injection h
      · intro i' v hok
        simp only [untilB, hul] at hok
        injection hok
    | some p =>
      obtain ⟨hle, hlt⟩ := untilLoop_some_bounds _ _ _ hul
      have hslice := slice_ascii hascii hle (le_of_lt hlt)
      constructor
      · intro m hcontra
        simp only [untilB, hul, hslice] at hcontra
        injection hcontra
      · intro i' v hok
        simp only [untilB, hul, hslice] at hok
        injection hok with h
        injection h with h1 h2
        subst h1
        exact ⟨rfl, le_of_lt hlt⟩

/-- `map` preserves safety. -/
theorem bgood_map {p : BParser α} (hp : BGood p) (f : α → β) : BGood (p.map f) := by
  intro i hascii hpos
  obtain ⟨hc, hok⟩ := hp i hascii hpos
  cases hpi : p i with
  | error e =>
    cases e with
    | crash m0 => exact absurd hpi (hc m0)
    | perr e0 =>
      constructor
      · intro m hcontra
        simp only [BParser.map, hpi] at hcontra
        injection hcontra with h
        injection h
      · intro i' v hok2
        simp only [BParser.map, hpi] at hok2
        injection hok2
  | ok pr =>
    obtain ⟨i2, x⟩ := pr
    obtain ⟨hb2, hp2⟩ := hok i2 x hpi
    constructor
    · intro m hcontra
      simp only [BParser.map, hpi] at hcontra
      injection hcontra
    · intro i' v hok2
      simp only [BParser.map, hpi] at hok2
      injection hok2 with h
      injection h with h1 h2
      subst h1
      exact ⟨hb2, hp2⟩

/-- `map_` preserves safety. -/
theorem bgood_mapConst {p : BParser α} (hp : BGood p) (x : β) : BGood (p.mapConst x) := by
  intro i hascii hpos
  obtain ⟨hc, hok⟩ := hp i hascii hpos
  cases hpi : p i with
  | error e =>
    cases e with
    | crash m0 => exact absurd hpi (hc m0)
    | perr e0 =>
      constructor
      · intro m hcontra
        simp only [BParser.mapConst, hpi] at hcontra
        injection hcontra with h
        injection h
      · intro i' v hok2
        simp only [BParser.mapConst, hpi] at hok2
        injection hok2
  | ok pr =>
    obtain ⟨i2, y⟩ := pr
    obtain ⟨hb2, hp2⟩ := hok i2 y hpi
    constructor
    · intro m hcontra
      simp only [BParser.mapConst, hpi] at hcontra
      injection hcontra
    · intro i' v hok2
      simp only [BParser.mapConst, hpi] at hok2
      injection hok2 with h
      injection h with h1 h2
      subst h1
      exact ⟨hb2, hp2⟩

/-- `try` preserves safety. -/
theorem bgood_tryP {p : BParser α} (hp : BGood p) : BGood p.tryP := by
  intro i hascii hpos
  obtain ⟨hc, hok⟩ := hp i hascii hpos
  cases hpi : p i with
  | error e =>
    cases e with
    | crash m0 => exact absurd hpi (hc m0)
    | perr e0 =>
      constructor
      · intro m hcontra
        simp only [BParser.tryP, hpi] at hcontra
        injection hcontra with h
        injection h
      · intro i' v hok2
        simp only [BParser.tryP, hpi] at hok2
        injection hok2
  | ok pr =>
    obtain ⟨i2, x⟩ := pr
    obtain ⟨hb2, hp2⟩ := hok i2 x hpi
    constructor
    · intro m hcontra
      simp only [BParser.tryP, hpi] at hcontra
      injection hcontra
    · intro i' v hok2
      simp only [BParser.tryP, hpi] at hok2
      injection hok2 with h
      injection h with h1 h2
      subst h1
      exact ⟨hb2, hp2⟩

/-- `or_not` preserves safety. -/
theorem bgood_orNot {p : BParser α} (hp : BGood p) : BGood p.orNot := by
  intro i hascii hpos
  obtain ⟨hc, hok⟩ := hp i hascii hpos
  cases hpi : p i with
  | error e =>
    cases e with
    | crash m0 => exact absurd hpi (hc m0)
    | perr e0 =>
      constructor
      · intro m hcontra
        simp only [BParser.orNot, hpi] at hcontra
        injection hcontra
      · intro i' v hok2
        simp only [BParser.orNot, hpi] at hok2
        injection hok2 with h
        injection h with h1 h2
        subst h1
        exact ⟨rfl, hpos⟩
  | ok pr =>
    obtain ⟨i2, x⟩ := pr
    obtain ⟨hb2, hp2⟩ := hok i2 x hpi
    constructor
    · intro m hcontra
      simp only [BParser.orNot, hpi] at hcontra
      injection hcontra
    · intro i' v hok2
      simp only [BParser.orNot, hpi] at hok2
      injection hok2 with h
      injection h with h1 h2
      subst h1
      exact ⟨hb2, hp2⟩

/-- `or` preserves safety. -/
theorem bgood_or {p q : BParser α} (hp : BGood p) (hq : BGood q) : BGood (p.or q) := by
  intro i hascii hpos
  obtain ⟨hc, hok⟩ := hp i hascii hpos
  obtain ⟨hcq, hokq⟩ := hq i hascii hpos
  cases hpi : p i with
  | error e =>
    cases e with
    | crash m0 => exact absurd hpi (hc m0)
    | perr e0 =>
      obtain ⟨rt, msg, ps⟩ := e0
      cases rt with
      | true =>
        constructor
        · intro m hcontra
          simp only [BParser.or, hpi] at hcontra
          exact hcq m hcontra
        · intro i' v hok2
          simp only [BParser.or, hpi] at hok2
          exact hokq i' v hok2
      | false =>
        constructor
        · intro m hcontra
          simp only [BParser.or, hpi] at hcontra
          injection hcontra with h
          injection h
        · intro i' v hok2
          simp only [BParser.or, hpi] at hok2
          injection hok2
  | ok pr =>
    obtain ⟨i2, x⟩ := pr
    obtain ⟨hb2, hp2⟩ := hok i2 x hpi
    constructor
    · intro m hcontra
      simp only [BParser.or, hpi] at hcontra
      injection hcontra
    · intro i' v hok2
      simp only [BParser.or, hpi] at hok2
      injection hok2 with h
      injection h with h1 h2
      subst h1
      exact ⟨hb2, hp2⟩

/-- `or_lazy` preserves safety. -/
theorem bgood_orLazy {p : BParser α} {f : Unit → BParser α} (hp : BGood p)
    (hf : ∀ u, BGood (f u)) : BGood (p.orLazy f) := by
  intro i hascii hpos
  obtain ⟨hc, hok⟩ := hp i hascii hpos
  obtain ⟨hcq, hokq⟩ := hf () i hascii hpos
  cases hpi : p i with
  | error e =>
    cases e with
    | crash m0 => exact absurd hpi (hc m0)
    | perr e0 =>
      obtain ⟨rt, msg, ps⟩ := e0
      cases rt with
      | true =>
        constructor
        · intro m hcontra
          simp only [BParser.orLazy, hpi] at hcontra
          exact hcq m hcontra
        · intro i' v hok2
          simp only [BParser.orLazy, hpi] at hok2
          exact hokq i' v hok2
      | false =>
        constructor
        · intro m hcontra
          simp only [BParser.orLazy, hpi] at hcontra
          injection hcontra with h
          injection h
        · intro i' v hok2
          simp only [BParser.orLazy, hpi] at hok2
          injection hok2
  | ok pr =>
    obtain ⟨i2, x⟩ := pr
    obtain ⟨hb2, hp2⟩ := hok i2 x hpi
    constructor
    · intro m hcontra
      simp only [BParser.orLazy, hpi] at hcontra
      injection hcontra
    · intro i' v hok2
      simp only [BParser.orLazy, hpi] at hok2
      injection hok2 with h
      injection h with h1 h2
      subst h1
      exact ⟨hb2, hp2⟩

/-- `flat_map` preserves safety. -/
theorem bgood_flatMap {p : BParser α} {f : α → BParser β} (hp : BGood p) (hf : ∀ t, BGood (f t)) : BGood (p.flatMap f) := by
  intro i hascii hpos
  obtain ⟨hc, hok⟩ := hp i hascii hpos
  cases hpi : p i with
  | error e =>
    cases e with
    | crash m0 => exact absurd hpi (hc m0)
    | perr e0 =>
      constructor
      · intro m hcontra
        simp only [BParser.flatMap, hpi] at hcontra
        injection hcontra with h
        injection h
      · intro i' v hok2
        simp only [BParser.flatMap, hpi] at hok2
        injection hok2
  | ok pr =>
    obtain ⟨i2, o⟩ := pr
    obtain ⟨hb2, hp2⟩ := hok i2 o hpi
    obtain ⟨hc2, hok3⟩ := hf o i2 (by rw [hb2]; exact hascii) hp2
    cases hfi : f o i2 with
    | error e2 =>
      cases e2 with
      | crash m0 => exact absurd hfi (hc2 m0)
      | perr e1 =>
        constructor
        · intro m hcontra
          simp only [BParser.flatMap, hpi, hfi] at hcontra
          injection hcontra with h
          injection h
        · intro i' v hok2
          simp only [BParser.flatMap, hpi, hfi] at hok2
          injection hok2
    | ok pr2 =>
      obtain ⟨i3, o2⟩ := pr2
      obtain ⟨hb3, hp3⟩ := hok3 i3 o2 hfi
      constructor
      · intro m hcontra
        simp only [BParser.flatMap, hpi, hfi] at hcontra
        injection hcontra
      · intro i' v hok2
        simp only [BParser.flatMap, hpi, hfi] at hok2
        injection hok2 with h
        injection h with h1 h2
        subst h1
        exact ⟨hb3.trans hb2, hp3⟩

/-- `then` preserves safety. -/
theorem bgood_thenP {p : BParser α} {q : BParser β} (hp : BGood p) (hq : BGood q) : BGood (p.thenP q) := by
  intro i hascii hpos
  obtain ⟨hc, hok⟩ := hp i hascii hpos
  cases hpi : p i with
  | error e =>
    cases e with
    | crash m0 => exact absurd hpi (hc m0)
    | perr e0 =>
      constructor
      · intro m hcontra
        simp only [BParser.thenP, hpi] at hcontra
        injection hcontra with h
        injection h
      · intro i' v hok2
        simp only [BParser.thenP, hpi] at hok2
        injection hok2
  | ok pr =>
    obtain ⟨i2, o⟩ := pr
    obtain ⟨hb2, hp2⟩ := hok i2 o hpi
    obtain ⟨hc2, hok3⟩ := hq i2 (by rw [hb2]; exact hascii) hp2
    cases hfi : q i2 with
    | error e2 =>
      cases e2 with
      | crash m0 => exact absurd hfi (hc2 m0)
      | perr e1 =>
        constructor
        · intro m hcontra
          simp only [BParser.thenP, hpi, hfi] at hcontra
          injection hcontra with h
          injection h
        · intro i' v hok2
          simp only [BParser.thenP, hpi, hfi] at hok2
          injection hok2
    | ok pr2 =>
      obtain ⟨i3, o2⟩ := pr2
      obtain ⟨hb3, hp3⟩ := hok3 i3 o2 hfi
      constructor
      · intro m hcontra
        simp only [BParser.thenP, hpi, hfi] at hcontra
        injection hcontra
      · intro i' v hok2
        simp only [BParser.thenP, hpi, hfi] at hok2
        injection hok2 with h
        injection h with h1 h2
        subst h1
        exact ⟨hb3.trans hb2, hp3⟩

/-- `skip` preserves safety. -/
theorem bgood_skip {p : BParser α} {q : BParser β} (hp : BGood p) (hq : BGood q) : BGood (p.skip q) := by
  intro i hascii hpos
  obtain ⟨hc, hok⟩ := hp i hascii hpos
  cases hpi : p i with
  | error e =>
    cases e with
    | crash m0 => exact absurd hpi (hc m0)
    | perr e0 =>
      constructor
      · intro m hcontra
        simp only [BParser.skip, hpi] at hcontra
        injection hcontra with h
        injection h
      · intro i' v hok2
        simp only [BParser.skip, hpi] at hok2
        injection hok2
  | ok pr =>
    obtain ⟨i2, o⟩ := pr
    obtain ⟨hb2, hp2⟩ := hok i2 o hpi
    obtain ⟨hc2, hok3⟩ := hq i2 (by rw [hb2]; exact hascii) hp2
    cases hfi : q i2 with
    | error e2 =>
      cases e2 with
      | crash m0 => exact absurd hfi (hc2 m0)
      | perr e1 =>
        constructor
        · intro m hcontra
          simp only [BParser.skip, hpi, hfi] at hcontra
          injection hcontra with h
          injection h
        · intro i' v hok2
          simp only [BParser.skip, hpi, hfi] at hok2
          injection hok2
    | ok pr2 =>
      obtain ⟨i3, o2⟩ := pr2
      obtain ⟨hb3, hp3⟩ := hok3 i3 o2 hfi
      constructor
      · intro m hcontra
        simp only [BParser.skip, hpi, hfi] at hcontra
        injection hcontra
      · intro i' v hok2
        simp only [BParser.skip, hpi, hfi] at hok2
        injection hok2 with h
        injection h with h1 h2
        subst h1
        exact ⟨hb3.trans hb2, hp3⟩

/-- `and` preserves safety. -/
theorem bgood_and {p : BParser α} {q : BParser β} (hp : BGood p) (hq : BGood q) : BGood (p.and q) := by
  intro i hascii hpos
  obtain ⟨hc, hok⟩ := hp i hascii hpos
  cases hpi : p i with
  | error e =>
    cases e with
    | crash m0 => exact absurd hpi (hc m0)
    | perr e0 =>
      constructor
      · intro m hcontra
        simp only [BParser.and, hpi] at hcontra
        injection hcontra with h
        injection h
      · intro i' v hok2
        simp only [BParser.and, hpi] at hok2
        injection hok2
  | ok pr =>
    obtain ⟨i2, o⟩ := pr
    obtain ⟨hb2, hp2⟩ := hok i2 o hpi
    obtain ⟨hc2, hok3⟩ := hq i2 (by rw [hb2]; exact hascii) hp2
    cases hfi : q i2 with
    | error e2 =>
      cases e2 with
      | crash m0 => exact absurd hfi (hc2 m0)
      | perr e1 =>
        constructor
        · intro m hcontra
          simp only [BParser.and, hpi, hfi] at hcontra
          injection hcontra with h
          injection h
        · intro i' v hok2
          simp only [BParser.and, hpi, hfi] at hok2
          injection hok2
    | ok pr2 =>
      obtain ⟨i3, o2⟩ := pr2
      obtain ⟨hb3, hp3⟩ := hok3 i3 o2 hfi
      constructor
      · intro m hcontra
        simp only [BParser.and, hpi, hfi] at hcontra
        injection hcontra
      · intro i' v hok2
        simp only [BParser.and, hpi, hfi] at hok2
        injection hok2 with h
        injection h with h1 h2
        subst h1
        exact ⟨hb3.trans hb2, hp3⟩

/-- `and_lazy` preserves safety. -/
theorem bgood_andLazy {p : BParser α} {f : Unit → BParser β} (hp : BGood p) (hf : ∀ u, BGood (f u)) : BGood (p.andLazy f) := by
  intro i hascii hpos
  obtain ⟨hc, hok⟩ := hp i hascii hpos
  cases hpi : p i with
  | error e =>
    cases e with
    | crash m0 => exact absurd hpi (hc m0)
    | perr e0 =>
      constructor
      · intro m hcontra
        simp only [BParser.andLazy, hpi] at hcontra
        injection hcontra with h
        injection h
      · intro i' v hok2
        simp only [BParser.andLazy, hpi] at hok2
        injection hok2
  | ok pr =>
    obtain ⟨i2, o⟩ := pr
    obtain ⟨hb2, hp2⟩ := hok i2 o hpi
    obtain ⟨hc2, hok3⟩ := hf () i2 (by rw [hb2]; exact hascii) hp2
    cases hfi : f () i2 with
    | error e2 =>
      cases e2 with
      | crash m0 => exact absurd hfi (hc2 m0)
      | perr e1 =>
        constructor
        · intro m hcontra
          simp only [BParser.andLazy, hpi, hfi] at hcontra
          injection hcontra with h
          injection h
        · intro i' v hok2
          simp only [BParser.andLazy, hpi, hfi] at hok2
          injection hok2
    | ok pr2 =>
      obtain ⟨i3, o2⟩ := pr2
      obtain ⟨hb3, hp3⟩ := hok3 i3 o2 hfi
      constructor
      · intro m hcontra
        simp only [BParser.andLazy, hpi, hfi] at hcontra
        injection hcontra
      · intro i' v hok2
        simp only [BParser.andLazy, hpi, hfi] at hok2
        injection hok2 with h
        injection h with h1 h2
        subst h1
        exact ⟨hb3.trans hb2, hp3⟩

/-- `then_lazy` preserves safety (it is `flat_map` by definition). -/
theorem bgood_thenLazy {p : BParser α} {f : Unit → BParser β} (hp : BGood p)
    (hf : ∀ u, BGood (f u)) : BGood (p.thenLazy f) :=
  bgood_flatMap hp fun _ => hf ()

/-- The loop of `many` preserves safety, for any fuel. -/
theorem bgood_manyLoop {p : BParser α} (hp : BGood p) :
    ∀ (fuel : Nat) (i : BStream) (v : List α),
      allAscii i.body = true → i.pos ≤ i.body.length →
      (∀ m, manyLoop p fuel i v ≠ .error (.crash m)) ∧
      (∀ i' v', manyLoop p fuel i v = .ok (i', v') →
        i'.body = i.body ∧ i'.pos ≤ i'.body.length) := by
  intro fuel
  induction fuel with
  | zero =>
    intro i v hascii hpos
    constructor
    · intro m h
      simp only [manyLoop] at h
      injection h
    · intro i' v' h
      simp only [manyLoop] at h
      injection h with h2
      injection h2 with h3 h4
      subst h3
      exact ⟨rfl, hpos⟩
  | succ fuel ih =>
    intro i v hascii hpos
    obtain ⟨hc, hok⟩ := hp i hascii hpos
    cases hpi : p i with
    | ok pr =>
      obtain ⟨i2, o⟩ := pr
      obtain ⟨hb2, hp2⟩ := hok i2 o hpi
      obtain ⟨ihc, ihok⟩ := ih i2 (v ++ [o]) (by rw [hb2]; exact hascii) hp2
      constructor
      · intro m h
        simp only [manyLoop, hpi] at h
        exact ihc m h
      · intro i' v' h
        simp only [manyLoop, hpi] at h
        obtain ⟨hb3, hp3⟩ := ihok i' v' h
        exact ⟨hb3.trans hb2, hp3⟩
    | error e =>
      cases e with
      | crash m0 => exact absurd hpi (hc m0)
      | perr e0 =>
        obtain ⟨rt, msg, ps⟩ := e0
        cases rt with
        | true =>
          constructor
          · intro m h
            simp only [manyLoop, hpi] at h
            injection h
          · intro i' v' h
            simp only [manyLoop, hpi] at h
            injection h with h2
            injection h2 with h3 h4
            subst h3
            exact ⟨rfl, hpos⟩
        | false =>
          constructor
          · intro m h
            simp only [manyLoop, hpi] at h
            injection h with h2
            injection h2
          · intro i' v' h
            simp only [manyLoop, hpi] at h
            injection h

/-- `many` preserves safety. -/
theorem bgood_manyP {p : BParser α} (hp : BGood p) : BGood p.manyP := by
  intro i hascii hpos
  obtain ⟨h1, h2⟩ := bgood_manyLoop hp (i.body.length + 1) i [] hascii hpos
  exact ⟨h1, h2⟩

/-- The loop of `sep_by` preserves safety, for any fuel. -/
theorem bgood_sepByLoop {p : BParser α} {d : BParser β} (hp : BGood p) (hd : BGood d) :
    ∀ (fuel : Nat) (i : BStream) (v : List α),
      allAscii i.body = true → i.pos ≤ i.body.length →
      (∀ m, sepByLoop p d fuel i v ≠ .error (.crash m)) ∧
      (∀ i' v', sepByLoop p d fuel i v = .ok (i', v') →
        i'.body = i.body ∧ i'.pos ≤ i'.body.length) := by
  intro fuel
  induction fuel with
  | zero =>
    intro i v hascii hpos
    constructor
    · intro m h
      simp only [sepByLoop] at h
      injection h
    · intro i' v' h
      simp only [sepByLoop] at h
      injection h with h2
      injection h2 with h3 h4
      subst h3
      exact ⟨rfl, hpos⟩
  | succ fuel ih =>
    intro i v hascii hpos
    obtain ⟨hcd, hokd⟩ := hd i hascii hpos
    cases hdi : d i with
    | ok prd =>
      obtain ⟨i3, x⟩ := prd
      obtain ⟨hb3, hp3⟩ := hokd i3 x hdi
      obtain ⟨hcp, hokp⟩ := hp i3 (by rw [hb3]; exact hascii) hp3
      cases hpi : p i3 with
      | ok prp =>
        obtain ⟨i4, o⟩ := prp
        obtain ⟨hb4, hp4⟩ := hokp i4 o hpi
        obtain ⟨ihc, ihok⟩ := ih i4 (v ++ [o])
          (by rw [hb4, hb3]; exact hascii) hp4
        constructor
        · intro m h
          simp only [sepByLoop, hdi, hpi] at h
          exact ihc m h
        · intro i' v' h
          simp only [sepByLoop, hdi, hpi] at h
          obtain ⟨hb5, hp5⟩ := ihok i' v' h
          exact ⟨(hb5.trans hb4).trans hb3, hp5⟩
      | error e =>
        cases e with
        | crash m0 => exact absurd hpi (hcp m0)
        | perr e0 =>
          constructor
          · intro m h
            simp only [sepByLoop, hdi, hpi] at h
            injection h with h2
            injection h2
          · intro i' v' h
            simp only [sepByLoop, hdi, hpi] at h
            injection h
    | error e =>
      cases e with
      | crash m0 => exact absurd hdi (hcd m0)
      | perr e0 =>
        obtain ⟨rt, msg, ps⟩ := e0
        cases rt with
        | true =>
          constructor
          · intro m h
            simp only [sepByLoop, hdi] at h
            injection h
          · intro i' v' h
            simp only [sepByLoop, hdi] at h
            injection h with h2
            injection h2 with h3 h4
            subst h3
            exact ⟨rfl, hpos⟩
        | false =>
          constructor
          · intro m h
            simp only [sepByLoop, hdi] at h
            injection h with h2
            injection h2
          · intro i' v' h
            simp only [sepByLoop, hdi] at h
            injection h

/-- `sep_by` preserves safety. -/
theorem bgood_sepBy {p : BParser α} {d : BParser β} (hp : BGood p) (hd : BGood d) :
    BGood (p.sepBy d) := by
  intro i hascii hpos
  obtain ⟨hc, hok⟩ := hp i hascii hpos
  cases hpi : p i with
  | ok pr =>
    obtain ⟨i2, o⟩ := pr
    obtain ⟨hb2, hp2⟩ := hok i2 o hpi
    obtain ⟨lc, lok⟩ := bgood_sepByLoop hp hd (i.body.length + 1) i2 [o]
      (by rw [hb2]; exact hascii) hp2
    constructor
    · intro m h
      simp only [BParser.sepBy, hpi] at h
      exact lc m h
    · intro i' v h
      simp only [BParser.sepBy, hpi] at h
      obtain ⟨hb3, hp3⟩ := lok i' v h
      exact ⟨hb3.trans hb2, hp3⟩
  | error e =>
    cases e with
    | crash m0 => exact absurd hpi (hc m0)
    | perr e0 =>
      constructor
      · intro m h
        simp only [BParser.sepBy, hpi] at h
        injection h
      · intro i' v h
        simp only [BParser.sepBy, hpi] at h
        injection h with h2
        injection h2 with h3 h4
        subst h3
        exact ⟨rfl, hpos⟩

/-- `with_spaces` preserves safety (it is a composition of safe
combinators). -/
theorem bgood_withSpaces {p : BParser α} (hp : BGood p) : BGood p.withSpaces :=
  bgood_tryP (bgood_skip (bgood_thenP (bgood_manyP (bgood_chr ' ')) hp)
    (bgood_manyP (bgood_chr ' ')))

/-- The `or`-fold of `or_from` preserves safety. -/
theorem bgood_orFold :
    ∀ (rest : List (BParser α)) (p0 : BParser α), BGood p0 →
      (∀ p ∈ rest, BGood p) →
      BGood (rest.foldl (fun acc q => (acc.tryP).or q) p0) := by
  intro rest
  induction rest with
  | nil =>
    intro p0 h _
    simpa using h
  | cons q rest ih =>
    intro p0 h hall
    simp only [List.foldl_cons]
    refine ih _ (bgood_or (bgood_tryP h) (hall q (List.mem_cons_self _ _))) ?_
    intro p hp2
    exact hall p (List.mem_cons_of_mem _ hp2)

/-- `or_from` on a nonempty sequence of safe parsers is safe. -/
theorem bgood_orFrom {ps : List (BParser α)} (hne : ps ≠ [])
    (hall : ∀ p ∈ ps, BGood p) : BGood (orFrom ps) := by
  cases ps with
  | nil => exact absurd rfl hne
  | cons p0 rest =>
    simp only [orFrom]
    refine bgood_orFold rest p0 (hall p0 (List.mem_cons_self _ _)) ?_
    intro p hp2
    exact hall p (List.mem_cons_of_mem _ hp2)

/-- C9, counterexample: the claim fails as stated — on the two-byte UTF-8
input `"é"` (`[0xC3, 0xA9]`), the primitive `chr` takes one byte, and the
slice `&cr[0..1]` cuts the character in half: the panic branch of slicing
is reached. -/
theorem c9_counterexample_multibyte_slice_panics :
    chr 'f' ⟨[195, 169], 0⟩
      = .error (.crash "byte index is not a char boundary") := by
  rfl

/-- C9, amended: for every parser built from the library's primitives
(`string`, `chr`, `until`, `unit`, `failure`) and combinators, and every
ASCII input (every byte below 128), running the parser from an in-bounds
cursor never reaches a panic branch of slicing or decoding, and every
cursor produced satisfies `pos <= len(body)` on the same input (`0 <=
pos` holds by the type).  On inputs containing multi-byte characters the
guarantee fails, as the counterexample shows. -/
theorem c9_amended_built_parsers_ascii_safe :
    ∀ {α : Type} (p : BParser α), Built p → BGood p := by
  intro α p hb
  induction hb with
  | unit x => exact bgood_unit x
  | string s => exact bgood_string s
  | chr c => exact bgood_chr c
  | untilB s => exact bgood_untilB s
  | failure m => exact bgood_failure m
  | map f _ ih => exact bgood_map ih f
  | mapConst x _ ih => exact bgood_mapConst ih x
  | flatMap _ _ ihp ihf => exact bgood_flatMap ihp ihf
  | thenP _ _ ihp ihq => exact bgood_thenP ihp ihq
  | thenLazy _ _ ihp ihf => exact bgood_thenLazy ihp ihf
  | skip _ _ ihp ihq => exact bgood_skip ihp ihq
  | and _ _ ihp ihq => exact bgood_and ihp ihq
  | andLazy _ _ ihp ihf => exact bgood_andLazy ihp ihf
  | or _ _ ihp ihq => exact bgood_or ihp ihq
  | orLazy _ _ ihp ihf => exact bgood_orLazy ihp ihf
  | orNot _ ih => exact bgood_orNot ih
  | tryP _ ih => exact bgood_tryP ih
  | manyP _ ih => exact bgood_manyP ih
  | sepBy _ _ ihp ihd => exact bgood_sepBy ihp ihd
  | withSpaces _ ih => exact bgood_withSpaces ih
  | orFrom hne _ ih => exact bgood_orFrom hne ih

/-- C9 amended, witness: on the ASCII input `"fo"` (`[102, 111]`), the
built parser `chr 'f'` does not reach the boundary panic. -/
theorem c9_amended_witness :
    chr 'f' ⟨[102, 111], 0⟩
      ≠ Except.error (BFail.crash "byte index is not a char boundary") :=
  (c9_amended_built_parsers_ascii_safe (chr 'f') (Built.chr 'f')
    ⟨[102, 111], 0⟩ (by decide) (by decide)).1 _

end Toyjq.ByteModel
